/-
Verification of the MolIO module (src/MolIO.py): a record-oriented
streaming parser/serializer for SDF and DLG molecule files, plus batch
utilities (count, split, sample, merge, format dispatch).

Shallow embedding conventions:
* Python `str` is modelled as `List Char` (`PyStr`); text files are read
  line by line, so a file is a `List PyStr` of lines (keeping `'\n'`
  terminators, as Python's `splitlines(keepends=True)` and file iteration
  do).  Line terminators are modelled as `'\n'` only.
* Python `float` is modelled as `ℚ`; `float(s)` becomes `pyFloatParse`
  (sign, integer digits, optional fractional digits) and the f-string
  rendering of a float becomes `printScore`.  All rationals are built with
  `mkRat` over integer arithmetic.
* Code that can raise an unhandled exception is modelled with `Option` /
  `Except`: `none` (resp. `.error`) marks the raise.
* The `random` module is modelled by an abstract generator type `G`
  together with a seeding function and a drawing function; `random.seed`
  replaces the generator state, `random.sample` reads it.
-/
import Mathlib

set_option maxRecDepth 4000

/-- Python strings as lists of characters. -/
abbrev PyStr := List Char

/-- Coerce a Lean string literal to the `PyStr` model. -/
def strL (s : String) : PyStr := s.toList

/-- The whitespace predicate used by Python's `str.strip` / `str.split`
(ASCII fragment). -/
def isWS (c : Char) : Bool :=
  c = ' ' || c = '\t' || c = '\n' || c = '\r' || c = '\x0b' || c = '\x0c'

/-- Python `str.lstrip()`. -/
def pyLstrip (l : PyStr) : PyStr := l.dropWhile isWS

/-- Python `str.rstrip()`. -/
def pyRstrip (l : PyStr) : PyStr := (l.reverse.dropWhile isWS).reverse

/-- Python `str.strip()`: strips whitespace from both ends (realised as
`lstrip` after `rstrip`; the two ends are independent). -/
def pyStrip (l : PyStr) : PyStr := pyLstrip (pyRstrip l)

/-- Helper for `pySplitlinesKeep`: accumulates the current (reversed)
line. -/
def splitLinesAux (acc : PyStr) : PyStr → List PyStr
  | [] => if acc = [] then [] else [acc.reverse]
  | c :: cs =>
    if c = '\n' then (acc.reverse ++ ['\n']) :: splitLinesAux [] cs
    else splitLinesAux (c :: acc) cs

/-- Python `str.splitlines(keepends=True)`, with `'\n'` as the line
terminator. -/
def pySplitlinesKeep (s : PyStr) : List PyStr := splitLinesAux [] s

/-- Helper for `pySplitWs`: accumulates the current (reversed) word. -/
def splitWsAux (cur : PyStr) : PyStr → List PyStr
  | [] => if cur = [] then [] else [cur.reverse]
  | c :: cs =>
    if isWS c then
      if cur = [] then splitWsAux [] cs else cur.reverse :: splitWsAux [] cs
    else splitWsAux (c :: cur) cs

/-- Python `str.split()` (no argument): split on whitespace runs,
dropping empty fields. -/
def pySplitWs (l : PyStr) : List PyStr := splitWsAux [] l

/-- Is `sub` a contiguous substring of `l`?  (Python's `sub in l`.) -/
def pyContains (sub : PyStr) : PyStr → Bool
  | [] => sub.isEmpty
  | c :: cs => sub.isPrefixOf (c :: cs) || pyContains sub cs

/-- Split `l` at the first occurrence of `sep` (a non-empty separator),
returning the part before and the part after, or `none` when `sep` does
not occur. -/
def findSplit (sep : PyStr) : PyStr → Option (PyStr × PyStr)
  | [] => none
  | c :: cs =>
    if sep.isPrefixOf (c :: cs) then some ([], (c :: cs).drop sep.length)
    else (findSplit sep cs).map (fun p => (c :: p.1, p.2))

/-- Python `s.split(sep)[1]`: the segment between the first and the
second occurrence of `sep` (or the rest of the string when `sep` occurs
exactly once); `none` models the `IndexError` when `sep` does not occur
at all. -/
def pySplitGet1 (sep l : PyStr) : Option PyStr :=
  (findSplit sep l).map (fun p =>
    match findSplit sep p.2 with
    | some q => q.1
    | none => p.2)

/-- Decimal digit character of `d < 10`. -/
def digitChar (d : Nat) : Char := Char.ofNat (48 + d)

/-- Fuelled decimal rendering of a natural number. -/
def natDigsAux : Nat → Nat → PyStr
  | 0, _ => []
  | fuel + 1, n =>
    if n < 10 then [digitChar n]
    else natDigsAux fuel (n / 10) ++ [digitChar (n % 10)]

/-- Decimal rendering of a natural number. -/
def natDigs (n : Nat) : PyStr := natDigsAux (n + 1) n

/-- Numeric value of a digit character. -/
def digitVal (c : Char) : Nat := c.toNat - 48

/-- Is `c` an ASCII decimal digit? -/
def isDigit (c : Char) : Bool := decide ('0' ≤ c) && decide (c ≤ '9')

/-- Value of a string of decimal digits. -/
def digitsVal (l : PyStr) : Nat := l.foldl (fun a c => a * 10 + digitVal c) 0

/-- Model of Python `float(s)` restricted to the decimal forms the
module produces and consumes: optional sign, digits, optional `'.'` and
further digits (no exponent; other inputs are rejected, which models the
`ValueError` Python raises for them). -/
def pyFloatParse (l : PyStr) : Option ℚ :=
  let core : PyStr → Option ℚ := fun l =>
    let ip := l.takeWhile isDigit
    let rest := l.dropWhile isDigit
    match rest with
    | [] => if ip = [] then none else some (mkRat (digitsVal ip) 1)
    | '.' :: fp =>
      if fp.all isDigit ∧ (ip ≠ [] ∨ fp ≠ []) then
        some (mkRat (digitsVal ip * 10 ^ fp.length + digitsVal fp) (10 ^ fp.length))
      else none
    | _ => none
  match l with
  | '-' :: l' => (core l').map (fun q => -q)
  | '+' :: l' => core l'
  | _ => core l

/-- Smallest `k ≤ 30` with `d ∣ 10 ^ k`, if any. -/
def decScale (d : Nat) : Option Nat :=
  (List.range 31).find? (fun k => 10 ^ k % d = 0)

/-- Left-pad `l` with `'0'` to length at least `n`. -/
def padZero (n : Nat) (l : PyStr) : PyStr :=
  List.replicate (n - l.length) '0' ++ l

/-- Model of Python's `f'{x}'` rendering of a float score: a decimal
rendering whenever the value is an exact decimal (the case for every
value `float(s)` can produce here); the `num/den` fallback marks values
with no finite decimal form. -/
def printScore (q : ℚ) : PyStr :=
  let sign : PyStr := if q.num < 0 then ['-'] else []
  match decScale q.den with
  | some 0 => sign ++ natDigs q.num.natAbs ++ strL ".0"
  | some k =>
    let ds := padZero (k + 1) (natDigs (q.num.natAbs * (10 ^ k / q.den)))
    sign ++ ds.take (ds.length - k) ++ '.' :: ds.drop (ds.length - k)
  | none => sign ++ natDigs q.num.natAbs ++ '/' :: natDigs q.den

/-- Python `sep.join(parts)`. -/
def joinSep (sep : PyStr) : List PyStr → PyStr
  | [] => []
  | [x] => x
  | x :: xs => x ++ sep ++ joinSep sep xs

/-! ## The SDF record model (`class SDF`) -/

/-- In-memory SDF record: the raw chunk `s` plus the three values
`SDF.parse` extracts (`self.score, self.title, self.mol`). -/
structure SDFRec where
  s : PyStr
  score : Option ℚ
  title : PyStr
  mol : PyStr
deriving DecidableEq, Repr

/-- The `'M  END'` sentinel. -/
def mEndStr : PyStr := strL "M  END"

/-- The score-scanning loop of `SDF.parse` (the `for j, line in
enumerate(lines[i + 2:])` loop).  `none` models the unhandled
`IndexError` raised by `lines[i + 2:][j + 1]` when a `> <score>` marker
is the last line; the `try/except` blocks around `float(...)` are
modelled by the inner `Option` matches, which set the score to `None` on
failure. -/
def scoreScan (cur : Option ℚ) : List PyStr → Option (Option ℚ)
  | [] => some cur
  | l :: restL =>
    if (strL "ENERGY").isPrefixOf l && pyContains (strL "LOWER_BOUND") l then
      let cur' : Option ℚ :=
        match pySplitGet1 (strL "=") l with
        | none => none
        | some rhs =>
          match (pySplitWs (pyLstrip rhs)).head? with
          | none => none
          | some tok => pyFloatParse tok
      scoreScan cur' restL
    else if (strL ">").isPrefixOf l && pyContains (strL "<score>") l then
      match restL.head? with
      | none => none
      | some v => scoreScan (pyFloatParse (pyStrip v)) restL
    else scoreScan cur restL

/-- `SDF.parse(s)`: returns `(score, title, mol)`; `none` models an
unhandled exception.  The molecule block is `lines[1:]` up to and
including the first line stripping to `'M  END'`; the score scan then
runs over `lines[i + 2:]` (which is empty when no `'M  END'` line
exists, matching the loop-variable bookkeeping in the source). -/
def sdfParse (s : PyStr) : Option (Option ℚ × PyStr × PyStr) :=
  if s = [] then some (none, [], [])
  else
    let lines := pySplitlinesKeep s
    let title := pyRstrip (lines.headD [])
    let rest := lines.drop 1
    match rest.findIdx? (fun l => pyStrip l = mEndStr) with
    | some k =>
      (scoreScan none (rest.drop (k + 1))).map
        (fun sc => (sc, title, (rest.take (k + 1)).flatten))
    | none => some (none, title, rest.flatten)

/-- `SDF(s)`: construct a record from a chunk of text. -/
def mkSDF (s : PyStr) : Option SDFRec :=
  (sdfParse s).map (fun p => ⟨s, p.1, p.2.1, p.2.2⟩)

/-- The record built from an empty chunk (`SDF('')`). -/
def emptySDFRec : SDFRec := ⟨[], none, [], []⟩

/-- `SDF.sdf(output=None, title='')`: serialize a record back to SDF
text. -/
def sdfText (r : SDFRec) (title : PyStr) : PyStr :=
  let scoreS : PyStr :=
    match r.score with
    | none => []
    | some q => strL "> <score>\n" ++ printScore q
  if r.mol ≠ [] then
    let s := (if title ≠ [] then title else r.title) ++ '\n' :: r.mol
    let s := if scoreS ≠ [] then s ++ '\n' :: scoreS ++ ['\n'] else s
    s ++ strL "\n$$$$\n"
  else strL "\n"

/-! ## The SDF stream parser (`parse_sdf`) -/

/-- The `'$$$$'` terminator. -/
def termStr : PyStr := strL "$$$$"

/-- The accumulating loop of `parse_sdf`: buffer lines, emit a record at
each line stripping to `'$$$$'`, and emit one final record from the
remaining buffer unconditionally at end of input.  `none` models an
unhandled exception inside `SDF.parse`. -/
def parseSDFAux (buf : List PyStr) : List PyStr → Option (List SDFRec)
  | [] => (mkSDF buf.flatten).map (fun r => [r])
  | l :: ls =>
    if pyStrip l = termStr then
      match mkSDF (buf ++ [l]).flatten, parseSDFAux [] ls with
      | some r, some rs => some (r :: rs)
      | _, _ => none
    else parseSDFAux (buf ++ [l]) ls

/-- `parse_sdf`: stream a file (given as its list of lines) into SDF
records. -/
def parseSDF (lines : List PyStr) : Option (List SDFRec) := parseSDFAux [] lines

/-- `count_sdf`: number of records with a non-empty molecule block. -/
def countMol (recs : List SDFRec) : Nat := recs.countP (fun r => r.mol ≠ [])

/-! ## The DLG record model (`class DLG`) -/

/-- The `'DOCKED: '` log-line marker. -/
def dockedStr : PyStr := strL "DOCKED: "

/-- The atom-line kinds kept by `DLG.parse`. -/
def dlgKinds : List PyStr :=
  [strL "ATOM", strL "ROOT", strL "ENDROOT", strL "BRANCH", strL "ENDBRANCH"]

/-- Parser state of `DLG.parse`: score, title and collected atom lines. -/
structure DlgSt where
  score : Option ℚ
  title : PyStr
  atoms : List PyStr
deriving DecidableEq, Repr

/-- One iteration of the `DLG.parse` loop.  `none` models an unhandled
`IndexError`: either `line.strip().split()[0]` on a whitespace-only
payload, or `line.strip().split(' = ')[1]` on a title line without the
`' = '` separator.  The `try/except` around the free-energy `float(...)`
is modelled by falling back to the previous score. -/
def dlgStep (st : DlgSt) (l : PyStr) : Option DlgSt :=
  if dockedStr.isPrefixOf l then
    let payload := l.drop dockedStr.length
    match pySplitWs (pyStrip payload) with
    | [] => none
    | tok :: _ =>
      if tok ∈ dlgKinds then some { st with atoms := st.atoms ++ [payload] }
      else if pyContains (strL "Estimated Free Energy of Binding") payload then
        let sc : Option ℚ :=
          match pySplitGet1 (strL "=") payload with
          | none => st.score
          | some rhs =>
            match (pySplitWs (pyLstrip rhs)).head? with
            | none => st.score
            | some tk =>
              match pyFloatParse tk with
              | none => st.score
              | some q => some q
        some { st with score := sc }
      else if pyContains (strL "REMARK Name =") payload then
        match pySplitGet1 (strL " = ") (pyStrip payload) with
        | none => none
        | some t => some { st with title := t }
      else some st
  else some st

/-- The `DLG.parse` loop over all lines. -/
def dlgLoop (st : DlgSt) : List PyStr → Option DlgSt
  | [] => some st
  | l :: ls =>
    match dlgStep st l with
    | none => none
    | some st' => dlgLoop st' ls

/-- `DLG.parse(s)`: returns `(score, title, atom)` or `none` for an
unhandled exception. -/
def dlgParse (s : PyStr) : Option (Option ℚ × PyStr × PyStr) :=
  (dlgLoop ⟨none, [], []⟩ (pySplitlinesKeep s)).map
    (fun st => (st.score, st.title, st.atoms.flatten))

/-- In-memory DLG record. -/
structure DLGRec where
  s : PyStr
  score : Option ℚ
  title : PyStr
  atom : PyStr
deriving DecidableEq, Repr

/-- `DLG.pdbqt(output=None, title='')` (the `output=None` path): rebuild
a PDBQT-dialect text, or the empty string when there are no atom
lines. -/
def pdbqtText (r : DLGRec) (title : PyStr) : PyStr :=
  let t := if title ≠ [] then title else r.title
  if r.atom ≠ [] then
    let parts : List PyStr :=
      [if t ≠ [] then strL "REMARK  Name = " ++ t else [],
       match r.score with
       | none => []
       | some q => strL "score " ++ printScore q,
       r.atom]
    joinSep ['\n'] (parts.filter (fun x => x ≠ []))
  else []

/-! ## Batch operations -/

/-- The accumulation loop of the `files` branch of `split_sdf`: records
are buffered into `items`; when the 1-based index `i` reaches `endv` the
bucket is flushed and `endv` advances by `num`; after the loop the
leftover bucket, with its final element removed, is written only when
it is then non-empty (`if items[:-1]:`).  Buckets are returned in write
order; each bucket is one output shard file. -/
def splitLoopF (num : Nat) : Nat → Nat → List SDFRec → List SDFRec → List (List SDFRec)
  | _, _, items, [] => if items.dropLast = [] then [] else [items.dropLast]
  | i, endv, items, x :: xs =>
    let items' := items ++ [x]
    if i = endv then items' :: splitLoopF num (i + 1) (endv + num) [] xs
    else splitLoopF num (i + 1) endv items' xs

/-- The `files` branch of `split_sdf` applied to the record stream
`recs` (the output of `parse_sdf`): a first counting pass computes
`num = ceil(count / files)` via `divmod`, then the streaming pass
buckets the records. -/
def splitFiles (recs : List SDFRec) (files : Nat) : List (List SDFRec) :=
  let n := countMol recs
  let num := n / files + (if n % files = 0 then 0 else 1)
  splitLoopF num 1 num [] recs

/-- The filter of `merge_sdf`: keep a record iff its score is set and
strictly below `max_score`. -/
def keepScore (maxScore : ℚ) (r : SDFRec) : Bool :=
  match r.score with
  | none => false
  | some q => decide (q < maxScore)

/-- Is `sort` a truthy sort request (`if sort:`)? -/
def sortRequested (sort : Option PyStr) : Bool :=
  match sort with
  | none => false
  | some s => s ≠ []

/-- The comparison `sorted` uses in `merge_sdf`:
`reverse=False if sort == 'descending' else True`, i.e. ascending by
score for the literal `'descending'` and descending by score for any
other requested direction.  Python's `sorted` is stable; it is modelled
by `List.insertionSort`, which inserts each element before the first
strictly-later-ordered one and therefore keeps equal keys in input
order. -/
def mergeKey (r : SDFRec) : ℚ := r.score.getD 0

/-- `merge_sdf(sdfs, output, sort, max_score)` modelled on the record
streams of the input files: concatenate the per-file filtered streams,
then sort when requested. -/
def mergeSDF (sdfss : List (List SDFRec)) (sort : Option PyStr) (maxScore : ℚ) :
    List SDFRec :=
  let items := (sdfss.map (fun l => l.filter (keepScore maxScore))).flatten
  if sortRequested sort then
    if sort = some (strL "descending") then
      List.insertionSort (fun a b => mergeKey a ≤ mergeKey b) items
    else
      List.insertionSort (fun a b => mergeKey b ≤ mergeKey a) items
  else items

/-- The two `ValueError`s `sample_sdf` can raise before any output is
written. -/
inductive SampleErr where
  | notSpecified
  | insufficient
deriving DecidableEq, Repr

/-- `sample_sdf(sdf, output, n, p, seed)` modelled on the record stream
of the input file.  `G` is the hidden state type of the `random` module,
`seedF` models `random.seed` (it replaces the state, discarding the
incoming state `g0`), and `drawF g total n` models
`random.sample(range(total), n)` run from state `g`.  The result is the
list of records written to the output file (those drawn records whose
molecule block is non-empty); an error is raised before anything is
written. -/
def sampleSDF {G : Type} (seedF : Nat → G) (drawF : G → Nat → Nat → List Nat)
    (g0 : G) (recs : List SDFRec) (n : Nat) (p : ℚ) (seed : Nat) :
    Except SampleErr (List SDFRec) :=
  let total := countMol recs
  let n' : Option Nat :=
    if n ≠ 0 then some n
    else if p ≠ 0 then some (Int.toNat ((total * p.num).fdiv (100 * p.den)))
    else none
  match n' with
  | none => .error .notSpecified
  | some n' =>
    if n' ≤ total then
      let _ := g0
      let g := seedF seed
      let indices := drawF g total n'
      let ss := (recs.enum.filter (fun p => p.1 ∈ indices)).map (fun p => p.2)
      .ok (ss.filter (fun r => r.mol ≠ []))
    else .error .insufficient

/-- The three outcomes of format dispatch in `parse(path)`. -/
inductive FmtDispatch where
  | sdfF
  | dlgF
  | unsupported
deriving DecidableEq, Repr

/-- The suffix test selecting the SDF parser in `parse(path)`. -/
def isSDFSuffix (path : PyStr) : Bool :=
  (strL ".sdf.gz").isSuffixOf path || (strL ".sdfgz").isSuffixOf path
    || (strL ".sdf").isSuffixOf path

/-- The suffix test selecting the DLG parser in `parse(path)`. -/
def isDLGSuffix (path : PyStr) : Bool :=
  (strL ".dlg.gz").isSuffixOf path || (strL ".dlg").isSuffixOf path

/-- `parse(path)`: dispatch on the filename suffix; `unsupported` models
the raised `TypeError` (the spec's `UnsupportedFormatError`). -/
def parseDispatch (path : PyStr) : FmtDispatch :=
  if isSDFSuffix path then .sdfF
  else if isDLGSuffix path then .dlgF
  else .unsupported

/-! ## Well-formedness predicates used by the theorems -/

/-- Is `l` a single properly terminated line: non-empty, ending in
`'\n'`, with no interior `'\n'`? -/
def isNLLine (l : PyStr) : Bool :=
  match l.getLast? with
  | none => false
  | some c => c = '\n' && !l.dropLast.contains '\n'

/-- A well-formed `$$$$`-terminated SDF record chunk: a non-empty list
of proper lines whose last line strips to `'$$$$'` and whose other lines
do not. -/
def wfChunk (c : List PyStr) : Bool :=
  match c.getLast? with
  | none => false
  | some t =>
    decide (pyStrip t = termStr)
      && c.dropLast.all (fun l => !decide (pyStrip l = termStr))
      && c.all isNLLine

/-- The record `parse_sdf` builds for a chunk (total helper; on
well-formed chunks `mkSDF` never fails, see `mkSDF_wfChunk_isSome`). -/
def chunkRec (c : List PyStr) : SDFRec := (mkSDF c.flatten).getD emptySDFRec

/-- The float-rendering contract the round trip relies on, checked on
the score actually stored in a record: the printed form contains no
newline, does not itself look like an `ENERGY` line or a `>` property
marker, and re-parses to the same value.  Python's `repr`/`float` pair
satisfies this for every float. -/
def scoreOkB : Option ℚ → Bool
  | none => true
  | some q =>
    let ps := printScore q
    decide (pyFloatParse (pyStrip ps) = some q)
      && !ps.contains '\n'
      && !(strL "ENERGY").isPrefixOf (ps ++ ['\n'])
      && !(strL ">").isPrefixOf (ps ++ ['\n'])

/-- A `DOCKED: ` line whose payload is whitespace-only: the shape on
which `DLG.parse`'s `line.strip().split()[0]` raises `IndexError`. -/
def wsPayload (l : PyStr) : Bool :=
  dockedStr.isPrefixOf l
    && decide (pySplitWs (pyStrip (l.drop dockedStr.length)) = [])

/-- The exact per-line condition under which one iteration of
`DLG.parse` does not raise: either the line has no `DOCKED: ` marker, or
its payload has a first token, and — when the payload is classified to
the title branch — the stripped payload contains the `' = '`
separator. -/
def dlgLineOk (l : PyStr) : Bool :=
  !dockedStr.isPrefixOf l ||
    (let payload := l.drop dockedStr.length
     match pySplitWs (pyStrip payload) with
     | [] => false
     | tok :: _ =>
       if tok ∈ dlgKinds then true
       else if pyContains (strL "Estimated Free Energy of Binding") payload then true
       else if pyContains (strL "REMARK Name =") payload then
         (pySplitGet1 (strL " = ") (pyStrip payload)).isSome
       else true)

/-! ## Generic helper lemmas -/

theorem dropWhile_idem (p : Char → Bool) (l : PyStr) :
    List.dropWhile p (List.dropWhile p l) = List.dropWhile p l := by
  induction l with
  | nil => rfl
  | cons c cs ih =>
    by_cases h : p c
    · simp [List.dropWhile_cons, h, ih]
    · simp [List.dropWhile_cons, h]

theorem rstrip_append_ws (x : PyStr) (c : Char) (hc : isWS c = true) :
    pyRstrip (x ++ [c]) = pyRstrip x := by
  simp [pyRstrip, List.dropWhile_cons, hc]

theorem rstrip_idem (x : PyStr) : pyRstrip (pyRstrip x) = pyRstrip x := by
  simp [pyRstrip, List.reverse_reverse, dropWhile_idem]

theorem strip_append_ws (x : PyStr) (c : Char) (hc : isWS c = true) :
    pyStrip (x ++ [c]) = pyStrip x := by
  simp [pyStrip, rstrip_append_ws _ _ hc]

theorem mem_rstrip {a : Char} {l : PyStr} (h : a ∈ pyRstrip l) : a ∈ l := by
  have hsub := List.dropWhile_sublist (l := l.reverse) isWS
  have := hsub.mem (by simpa [pyRstrip] using h)
  simpa using this

theorem isNLLine_decomp {l : PyStr} (h : isNLLine l = true) :
    ∃ b, l = b ++ ['\n'] ∧ '\n' ∉ b := by
  induction l using List.reverseRecOn with
  | nil => simp [isNLLine] at h
  | append_singleton b c _ =>
    simp [isNLLine, List.getLast?_concat, List.dropLast_concat] at h
    exact ⟨b, by simp [h.1], by simpa using h.2⟩

theorem splitLinesAux_append (b : PyStr) (hb : '\n' ∉ b) (acc s : PyStr) :
    splitLinesAux acc (b ++ '\n' :: s) =
      ((acc.reverse ++ b) ++ ['\n']) :: splitLinesAux [] s := by
  induction b generalizing acc with
  | nil => simp [splitLinesAux]
  | cons c b' ih =>
    have hc : ¬(c = '\n') := by
      intro hcc
      exact hb (by simp [hcc])
    have hb' : '\n' ∉ b' := fun hm => hb (by simp [hm])
    calc splitLinesAux acc ((c :: b') ++ '\n' :: s)
        = splitLinesAux (c :: acc) (b' ++ '\n' :: s) := by
          simp only [List.cons_append, splitLinesAux, hc, if_false, List.append_eq]
      _ = (((c :: acc).reverse ++ b') ++ ['\n']) :: splitLinesAux [] s := ih hb' (c :: acc)
      _ = ((acc.reverse ++ (c :: b')) ++ ['\n']) :: splitLinesAux [] s := by simp

theorem splitlines_flatten (ls : List PyStr) (h : ∀ l ∈ ls, isNLLine l = true) :
    pySplitlinesKeep ls.flatten = ls := by
  induction ls with
  | nil => rfl
  | cons l ls ih =>
    obtain ⟨b, hbeq, hb⟩ := isNLLine_decomp (h l (by simp))
    have h2 : (l :: ls).flatten = b ++ '\n' :: ls.flatten := by
      simp [hbeq]
    rw [h2]
    unfold pySplitlinesKeep
    rw [splitLinesAux_append b hb]
    have h3 := ih (fun x hx => h x (by simp [hx]))
    unfold pySplitlinesKeep at h3
    rw [h3, hbeq]
    simp

theorem flatten_ne_nil {ls : List PyStr} (hne : ls ≠ [])
    (h : ∀ l ∈ ls, isNLLine l = true) : ls.flatten ≠ [] := by
  match ls, hne with
  | l :: ls, _ =>
    obtain ⟨b, hbeq, _⟩ := isNLLine_decomp (h l (by simp))
    simp [hbeq]

theorem getLast?_drop_ne {l : List PyStr} {n : Nat} (h : l.drop n ≠ []) :
    (l.drop n).getLast? = l.getLast? := by
  induction n generalizing l with
  | zero => rfl
  | succ n ih =>
    match l with
    | [] => simp at h
    | x :: xs =>
      have hxs : xs.drop n ≠ [] := by simpa using h
      have hne : xs ≠ [] := by
        intro hx
        rw [hx] at hxs
        simp at hxs
      rw [List.drop_succ_cons, ih hxs]
      match xs, hne with
      | y :: ys, _ => simp [List.getLast?_cons_cons]

theorem findIdx?_decomp (p : PyStr → Bool) (l : List PyStr) (k : Nat)
    (h : l.findIdx? p = some k) :
    ∃ a x b, l = a ++ x :: b ∧ a.length = k ∧ p x = true ∧
      ∀ y ∈ a, p y = false := by
  induction l generalizing k with
  | nil => simp [List.findIdx?_nil] at h
  | cons z l ih =>
    rw [List.findIdx?_cons] at h
    by_cases hz : p z = true
    · rw [if_pos hz] at h
      exact ⟨[], z, l, by simp, by simpa using h, hz, by simp⟩
    · rw [if_neg hz] at h
      rw [List.findIdx?_succ] at h
      obtain ⟨k', hk', rfl⟩ : ∃ k', l.findIdx? p = some k' ∧ k = k' + 1 := by
        cases hfd : l.findIdx? p with
        | none => rw [hfd] at h; simp at h
        | some k' =>
          rw [hfd] at h
          simp at h
          exact ⟨k', rfl, h.symm⟩
      obtain ⟨a, x, b, rfl, hlen, hx, ha⟩ := ih k' hk'
      refine ⟨z :: a, x, b, by simp, by simp [hlen], hx, ?_⟩
      intro y hy
      rcases List.mem_cons.mp hy with rfl | hy'
      · simpa using hz
      · exact ha y hy'

theorem findIdx?_of_decomp (p : PyStr → Bool) (a : List PyStr) (x : PyStr)
    (b : List PyStr) (hx : p x = true) (ha : ∀ y ∈ a, p y = false) :
    (a ++ x :: b).findIdx? p = some a.length := by
  induction a with
  | nil => simp [List.findIdx?_cons, hx]
  | cons z a ih =>
    have hz : p z = false := ha z (by simp)
    rw [List.cons_append, List.findIdx?_cons, hz]
    simp only [Bool.false_eq_true, if_false, List.findIdx?_succ]
    rw [ih (fun y hy => ha y (by simp [hy]))]
    simp

theorem isPrefixOf_total (p a b : PyStr) (ha : a.isPrefixOf p = true)
    (hb : b.isPrefixOf p = true) :
    a.isPrefixOf b = true ∨ b.isPrefixOf a = true := by
  simp only [List.isPrefixOf_iff_prefix] at ha hb ⊢
  exact List.prefix_or_prefix_of_prefix ha hb

theorem isSuffixOf_total (p a b : PyStr) (ha : a.isSuffixOf p = true)
    (hb : b.isSuffixOf p = true) :
    a.isSuffixOf b = true ∨ b.isSuffixOf a = true := by
  simp only [List.isSuffixOf] at *
  exact isPrefixOf_total p.reverse a.reverse b.reverse ha hb

theorem sdf_dlg_suffix_disjoint (path : PyStr) (hd : isDLGSuffix path = true) :
    isSDFSuffix path = false := by
  by_contra hcon
  have hs : isSDFSuffix path = true := by
    cases h : isSDFSuffix path
    · exact absurd h hcon
    · rfl
  simp only [isSDFSuffix, isDLGSuffix, Bool.or_eq_true] at hs hd
  rcases hs with (h1 | h1) | h1 <;> rcases hd with h2 | h2 <;>
    (rcases isSuffixOf_total path _ _ h1 h2 with h | h <;> revert h <;> decide)

/-! ## C4: merge keeps only records with a set score strictly below the ceiling -/

/-- C4.  For every list of input record streams and every score ceiling
`X`, the output of `merge_sdf` contains no record whose score is unset
and none whose score is `≥ X`: every output record has a score `q` with
`q < X` (the comparison is strict). -/
theorem merge_no_unset_no_high_score (sdfss : List (List SDFRec))
    (sort : Option PyStr) (X : ℚ) :
    ∀ r ∈ mergeSDF sdfss sort X, ∃ q, r.score = some q ∧ q < X := by
  intro r hr
  have hmem : r ∈ (sdfss.map (fun l => l.filter (keepScore X))).flatten := by
    unfold mergeSDF at hr
    by_cases hs : sortRequested sort = true
    · rw [if_pos hs] at hr
      by_cases hd : sort = some (strL "descending")
      · rw [if_pos hd] at hr
        exact ((List.perm_insertionSort _ _).mem_iff).mp hr
      · rw [if_neg hd] at hr
        exact ((List.perm_insertionSort _ _).mem_iff).mp hr
    · rw [if_neg hs] at hr
      exact hr
  rcases List.mem_flatten.mp hmem with ⟨l', hl', hrl⟩
  rcases List.mem_map.mp hl' with ⟨l0, _, rfl⟩
  have hkeep : keepScore X r = true := (List.mem_filter.mp hrl).2
  cases hsc : r.score with
  | none => simp [keepScore, hsc] at hkeep
  | some q =>
    refine ⟨q, rfl, ?_⟩
    simpa [keepScore, hsc] using hkeep

/-- Witness for C4 at a concrete input. -/
theorem merge_no_unset_no_high_score_witness :
    ∃ q, (SDFRec.mk (strL "a") (some (mkRat (-91) 10)) (strL "a") (strL "M  END\n")).score
        = some q ∧ q < mkRat 0 1 :=
  merge_no_unset_no_high_score
    [[SDFRec.mk (strL "a") (some (mkRat (-91) 10)) (strL "a") (strL "M  END\n")]]
    none (mkRat 0 1) _ (by decide)

/-! ## C6: sampling is deterministic in the seed -/

/-- C6.  For a fixed input record stream and a fixed seed, the result of
`sample_sdf` does not depend on the incoming state of the random source:
`random.seed(seed)` is called immediately before the draw, so any
earlier use of the generator (`g0` vs `g1`) is irrelevant, and two runs
with the same seed select identical record indices and produce identical
output. -/
theorem sample_seed_determinism {G : Type} (seedF : Nat → G)
    (drawF : G → Nat → Nat → List Nat) (g0 g1 : G) (recs : List SDFRec)
    (n : Nat) (p : ℚ) (seed : Nat) :
    sampleSDF seedF drawF g0 recs n p seed = sampleSDF seedF drawF g1 recs n p seed := rfl

/-! ## C7: sampling more records than exist fails up front -/

/-- C7.  If `sample_sdf` is asked for more records than the input
contains (`n` greater than the counted total), it raises the
insufficient-records error before opening the output, so no partial
sample is written; if `n` equals the total it does not fail. -/
theorem sample_insufficient_error {G : Type} (seedF : Nat → G)
    (drawF : G → Nat → Nat → List Nat) (g0 : G) (recs : List SDFRec)
    (n : Nat) (p : ℚ) (seed : Nat) (hn : 0 < n) :
    (countMol recs < n →
      sampleSDF seedF drawF g0 recs n p seed = .error .insufficient) ∧
    (n = countMol recs →
      (sampleSDF seedF drawF g0 recs n p seed).isOk = true) := by
  constructor
  · intro hlt
    simp [sampleSDF, hn.ne', Nat.not_le.mpr hlt]
  · intro heq
    simp [sampleSDF, hn.ne', heq.le, Except.isOk, Except.toBool]

/-- Witness for C7 at a concrete input (one non-empty record, `n = 2`). -/
theorem sample_insufficient_error_witness :
    sampleSDF (fun _ => ()) (fun _ _ _ => ([] : List Nat)) ()
      [SDFRec.mk (strL "a") none (strL "a") (strL "M  END\n")] 2 0 7
      = .error .insufficient :=
  (sample_insufficient_error _ _ _ _ _ _ _ (by decide)).1 (by decide)

/-! ## C8: format dispatch by filename suffix -/

/-- C8.  Format dispatch depends only on the filename suffix: the
suffixes `.sdf.gz`, `.sdfgz`, `.sdf` select the SDF parser, `.dlg.gz`
and `.dlg` select the DLG parser (the two suffix families cannot overlap
on one path), and any other path raises the unsupported-format error
without parsing. -/
theorem parse_dispatch_by_suffix (path : PyStr) :
    (isSDFSuffix path = true → parseDispatch path = .sdfF) ∧
    (isDLGSuffix path = true → parseDispatch path = .dlgF) ∧
    (isSDFSuffix path = false → isDLGSuffix path = false →
      parseDispatch path = .unsupported) := by
  refine ⟨fun hs => ?_, fun hd => ?_, fun hs hd => ?_⟩
  · simp [parseDispatch, hs]
  · simp [parseDispatch, sdf_dlg_suffix_disjoint path hd, hd]
  · simp [parseDispatch, hs, hd]

/-- Witness for C8 at concrete paths. -/
theorem parse_dispatch_by_suffix_witness :
    parseDispatch (strL "out/ligand.sdf.gz") = .sdfF :=
  (parse_dispatch_by_suffix (strL "out/ligand.sdf.gz")).1 (by decide)

/-! ## C9: a DLG record without atom lines serializes to the empty string -/

/-- C9.  For every `DLGRec` whose atom-line sequence is empty,
`DLG.pdbqt` returns the empty string, produced normally rather than by
raising. -/
theorem dlg_pdbqt_empty_atom (r : DLGRec) (t : PyStr) (h : r.atom = []) :
    pdbqtText r t = [] := by
  simp [pdbqtText, h]

/-- Witness for C9 at a concrete record. -/
theorem dlg_pdbqt_empty_atom_witness :
    pdbqtText (DLGRec.mk (strL "x") (some (mkRat (-91) 10)) (strL "lig") []) (strL "t")
      = [] :=
  dlg_pdbqt_empty_atom _ _ rfl

/-! ## C10: partiality of DLG record parsing -/

theorem dlgStep_wsPayload (st : DlgSt) (l : PyStr) (h : wsPayload l = true) :
    dlgStep st l = none := by
  simp only [wsPayload, Bool.and_eq_true, decide_eq_true_eq] at h
  simp [dlgStep, h.1, h.2]

theorem dlgStep_isSome (st : DlgSt) (l : PyStr) (h : dlgLineOk l = true) :
    (dlgStep st l).isSome = true := by
  by_cases hpre : dockedStr.isPrefixOf l = true
  · simp only [dlgStep, dlgLineOk, hpre, if_true, Bool.not_true, Bool.false_or] at h ⊢
    cases hsp : pySplitWs (pyStrip (l.drop dockedStr.length)) with
    | nil => rw [hsp] at h; simp at h
    | cons tok toks =>
      rw [hsp] at h
      by_cases hk : tok ∈ dlgKinds
      · simp [hk]
      · simp only [hk, if_false] at h ⊢
        by_cases he :
            pyContains (strL "Estimated Free Energy of Binding")
              (l.drop dockedStr.length) = true
        · simp [he]
        · simp only [he, if_false] at h ⊢
          by_cases hr : pyContains (strL "REMARK Name =") (l.drop dockedStr.length) = true
          · simp only [hr, if_true] at h ⊢
            cases hg : pySplitGet1 (strL " = ") (pyStrip (l.drop dockedStr.length)) with
            | none => rw [hg] at h; simp at h
            | some t => simp [hg]
          · simp [hr]
  · simp [dlgStep, hpre]

theorem dlgLoop_none (lines : List PyStr) (st : DlgSt)
    (hex : ∃ l ∈ lines, wsPayload l = true) : dlgLoop st lines = none := by
  induction lines generalizing st with
  | nil =>
    rcases hex with ⟨l, hl, _⟩
    simp at hl
  | cons x xs ih =>
    rcases hex with ⟨l, hl, hws⟩
    rcases List.mem_cons.mp hl with rfl | hl'
    · simp [dlgLoop, dlgStep_wsPayload st l hws]
    · cases hstep : dlgStep st x with
      | none => simp [dlgLoop, hstep]
      | some st' =>
        simp only [dlgLoop, hstep]
        exact ih st' ⟨l, hl', hws⟩

theorem dlgLoop_isSome (lines : List PyStr) (st : DlgSt)
    (h : ∀ l ∈ lines, dlgLineOk l = true) : (dlgLoop st lines).isSome = true := by
  induction lines generalizing st with
  | nil => simp [dlgLoop]
  | cons x xs ih =>
    have hx := dlgStep_isSome st x (h x (by simp))
    cases hstep : dlgStep st x with
    | none => rw [hstep] at hx; simp at hx
    | some st' =>
      simp only [dlgLoop, hstep]
      exact ih st' (fun l hl => h l (by simp [hl]))

/-- C10 (amended).  `DLG.parse` is partial: a record containing a
`DOCKED: ` line whose payload is whitespace-only makes
`line.strip().split()[0]` index an empty token list, raising an
unhandled exception that aborts the record.  Parsing returns without
raising when every `DOCKED: ` line has a non-empty payload *and* every
payload classified to the title branch (first token not an atom kind, no
free-energy marker, containing `'REMARK Name ='`) also contains the
`' = '` separator — without that extra condition a non-empty payload can
still raise, see `dlg_parse_nonempty_payload_cex`. -/
theorem dlg_parse_partiality (s : PyStr) :
    ((∃ l ∈ pySplitlinesKeep s, wsPayload l = true) → dlgParse s = none) ∧
    ((∀ l ∈ pySplitlinesKeep s, dlgLineOk l = true) → (dlgParse s).isSome = true) := by
  constructor
  · intro hex
    simp [dlgParse, dlgLoop_none _ _ hex]
  · intro hall
    have h := dlgLoop_isSome (pySplitlinesKeep s) ⟨none, [], []⟩ hall
    cases hl : dlgLoop ⟨none, [], []⟩ (pySplitlinesKeep s) with
    | none => rw [hl] at h; simp at h
    | some st => simp [dlgParse, hl]

/-- Counterexample to C10 as stated: in `'DOCKED: REMARK Name =\n'`
every `DOCKED: ` line has a non-empty payload, yet `DLG.parse` still
raises (the unguarded `line.strip().split(' = ')[1]` of the title
branch), so "non-empty payload" alone does not make parsing total. -/
theorem dlg_parse_nonempty_payload_cex :
    (∀ l ∈ pySplitlinesKeep (strL "DOCKED: REMARK Name =\n"),
      dockedStr.isPrefixOf l = true →
        pySplitWs (pyStrip (l.drop dockedStr.length)) ≠ []) ∧
    dlgParse (strL "DOCKED: REMARK Name =\n") = none := by decide

/-- Witness for C10: both branches of `dlg_parse_partiality` applied at
concrete records. -/
theorem dlg_parse_partiality_witness :
    dlgParse (strL "DOCKED: \n") = none ∧
    (dlgParse (strL "DOCKED: ATOM 1\n")).isSome = true :=
  ⟨(dlg_parse_partiality (strL "DOCKED: \n")).1 (by decide),
   (dlg_parse_partiality (strL "DOCKED: ATOM 1\n")).2 (by decide)⟩

/-! ## C1: the SDF stream parser on well-formed terminated records -/

theorem strip_cons_not_ws (c : Char) (rest : PyStr) (hc : isWS c = false) :
    ∃ z, pyStrip (c :: rest) = c :: z := by
  unfold pyStrip pyLstrip pyRstrip
  rw [List.reverse_cons, List.dropWhile_append]
  by_cases hd : (List.dropWhile isWS rest.reverse).isEmpty = true
  · rw [if_pos hd]
    exact ⟨[], by simp [List.dropWhile_cons, hc]⟩
  · rw [if_neg hd]
    refine ⟨(List.dropWhile isWS rest.reverse).reverse, ?_⟩
    rw [List.reverse_append]
    simp [List.dropWhile_cons, hc]

theorem marker_false_of_term (t : PyStr) (ht : pyStrip t = termStr) :
    ((strL ">").isPrefixOf t && pyContains (strL "<score>") t) = false := by
  by_cases hp : (strL ">").isPrefixOf t = true
  · exfalso
    cases t with
    | nil => simp [strL, List.isPrefixOf] at hp
    | cons c rest =>
      have hc : c = '>' := by
        have : (('>' == c) && List.isPrefixOf [] rest) = true := by
          simpa [strL, List.isPrefixOf] using hp
        simp at this
        exact this.symm
      subst hc
      obtain ⟨z, hz⟩ := strip_cons_not_ws '>' rest (by decide)
      rw [hz] at ht
      simp [termStr, strL] at ht
  · simp [Bool.eq_false_iff.mpr hp]

theorem scoreScan_isSome (scanL : List PyStr) (cur : Option ℚ)
    (h : ∀ t, scanL.getLast? = some t →
      ((strL ">").isPrefixOf t && pyContains (strL "<score>") t) = false) :
    (scoreScan cur scanL).isSome = true := by
  induction scanL generalizing cur with
  | nil => simp [scoreScan]
  | cons l restL ih =>
    have hrest : ∀ t, restL.getLast? = some t →
        ((strL ">").isPrefixOf t && pyContains (strL "<score>") t) = false := by
      intro t htl
      apply h
      cases restL with
      | nil => simp at htl
      | cons a as => rw [List.getLast?_cons_cons]; exact htl
    by_cases he : ((strL "ENERGY").isPrefixOf l && pyContains (strL "LOWER_BOUND") l) = true
    · simp only [scoreScan, he, if_true]
      exact ih _ hrest
    · rw [Bool.not_eq_true] at he
      by_cases hm : ((strL ">").isPrefixOf l && pyContains (strL "<score>") l) = true
      · cases restL with
        | nil =>
          have := h l (by simp)
          rw [hm] at this
          simp at this
        | cons v vs =>
          simp only [scoreScan, he, hm, if_true, Bool.false_eq_true, if_false, List.head?]
          exact ih _ hrest
      · rw [Bool.not_eq_true] at hm
        simp only [scoreScan, he, hm, Bool.false_eq_true, if_false]
        exact ih _ hrest

theorem mkSDF_wfChunk_isSome (c : List PyStr) (h : wfChunk c = true) :
    (mkSDF c.flatten).isSome = true := by
  unfold wfChunk at h
  cases hg : c.getLast? with
  | none => rw [hg] at h; simp at h
  | some t =>
    rw [hg] at h
    simp only [Bool.and_eq_true, decide_eq_true_eq, List.all_eq_true] at h
    obtain ⟨⟨hterm, _⟩, hNL⟩ := h
    have hcne : c ≠ [] := by
      intro hcnil
      rw [hcnil] at hg
      simp at hg
    have hfne : c.flatten ≠ [] := flatten_ne_nil hcne (fun l hl => hNL l hl)
    unfold mkSDF sdfParse
    rw [if_neg hfne, splitlines_flatten c (fun l hl => hNL l hl)]
    cases hfd : (c.drop 1).findIdx? (fun l => decide (pyStrip l = mEndStr)) with
    | none =>
      simp only [hfd]
      simp
    | some k =>
      simp only [hfd]
      have hscan : (scoreScan none (List.drop (k + 1) (List.drop 1 c))).isSome = true := by
        apply scoreScan_isSome
        intro t' hlast
        have hne1 : List.drop (k + 1) (List.drop 1 c) ≠ [] := by
          intro hE
          rw [hE] at hlast
          simp at hlast
        have hne2 : List.drop 1 c ≠ [] := by
          intro hE
          rw [hE] at hne1
          simp at hne1
        rw [getLast?_drop_ne hne1, getLast?_drop_ne hne2, hg] at hlast
        obtain rfl : t = t' := Option.some.inj hlast
        exact marker_false_of_term t hterm
      cases hsc : scoreScan none (List.drop (k + 1) (List.drop 1 c)) with
      | none => rw [hsc] at hscan; simp at hscan
      | some sc => simp [hsc]

theorem parseSDFAux_chunk (b : List PyStr) (t : PyStr) (rest : List PyStr)
    (hb : ∀ l ∈ b, ¬(pyStrip l = termStr)) (ht : pyStrip t = termStr) :
    ∀ buf, parseSDFAux buf (b ++ t :: rest) =
      match mkSDF ((buf ++ b) ++ [t]).flatten, parseSDFAux [] rest with
      | some r, some rs => some (r :: rs)
      | _, _ => none := by
  induction b with
  | nil =>
    intro buf
    simp only [List.nil_append, List.append_nil, parseSDFAux, ht, if_true]
  | cons x b' ih =>
    intro buf
    have hx : ¬(pyStrip x = termStr) := hb x (by simp)
    simp only [List.cons_append, parseSDFAux, hx, if_false, List.append_eq]
    rw [ih (fun l hl => hb l (by simp [hl])) (buf ++ [x])]
    have harr : (buf ++ [x]) ++ b' = buf ++ x :: b' := by simp
    rw [harr]

/-- C1 (amended).  For a stream consisting of `K` well-formed
`$$$$`-terminated records, `parse_sdf` yields `K + 1` records: the `K`
records, in input order, followed by one empty record built from the
(empty) residual buffer — the final record is emitted unconditionally at
end of stream, not only when the buffer is non-empty. -/
theorem parse_sdf_stream_chunks (chunks : List (List PyStr))
    (h : ∀ c ∈ chunks, wfChunk c = true) :
    parseSDF chunks.flatten = some (chunks.map chunkRec ++ [emptySDFRec]) := by
  induction chunks with
  | nil => rfl
  | cons c cs ih =>
    have hc := h c (by simp)
    have hsome := mkSDF_wfChunk_isSome c hc
    unfold wfChunk at hc
    induction c using List.reverseRecOn with
    | nil => simp at hc
    | append_singleton b t _ =>
      rw [List.getLast?_concat] at hc
      simp only [List.dropLast_concat, Bool.and_eq_true, decide_eq_true_eq,
        List.all_eq_true, Bool.not_eq_true', decide_eq_false_iff_not] at hc
      obtain ⟨⟨hterm, hdrop⟩, _⟩ := hc
      have hflat : ((b ++ [t]) :: cs).flatten = b ++ t :: cs.flatten := by
        simp
      unfold parseSDF
      rw [hflat, parseSDFAux_chunk b t cs.flatten hdrop hterm []]
      unfold parseSDF at ih
      rw [ih (fun c' hc' => h c' (by simp [hc']))]
      cases hmk : mkSDF ((([] : List PyStr) ++ b) ++ [t]).flatten with
      | none =>
        rw [List.nil_append] at hmk
        rw [hmk] at hsome
        simp at hsome
      | some r =>
        rw [List.nil_append] at hmk
        simp only [List.map_cons, chunkRec, hmk, Option.getD_some, List.cons_append]

/-- Counterexample to C1 as stated: one well-formed `$$$$`-terminated
record (`K = 1`) yields two records from `parse_sdf` — the trailing
empty-buffer record is emitted even though the residual buffer is
empty. -/
theorem parse_sdf_stream_cex :
    (parseSDF [strL "A\n", strL "M  END\n", strL "$$$$\n"]).map List.length = some 2 ∧
    (parseSDF [strL "A\n", strL "M  END\n", strL "$$$$\n"]).map List.length ≠ some 1 := by
  decide

/-- Witness for C1 (amended) at a concrete one-record stream. -/
theorem parse_sdf_stream_chunks_witness :
    parseSDF ([[strL "A\n", strL "M  END\n", strL "$$$$\n"]].flatten)
      = some ([[strL "A\n", strL "M  END\n", strL "$$$$\n"]].map chunkRec ++ [emptySDFRec]) :=
  parse_sdf_stream_chunks [[strL "A\n", strL "M  END\n", strL "$$$$\n"]] (by decide)

/-! ## C3: merge sort direction and stability -/

theorem filter_orderedInsert (r : SDFRec → SDFRec → Prop) [DecidableRel r]
    (p : SDFRec → Bool) (a : SDFRec) (l : List SDFRec)
    (hp : ∀ b, p a = true → p b = true → r a b) :
    (List.orderedInsert r a l).filter p =
      if p a then a :: l.filter p else l.filter p := by
  induction l with
  | nil => simp [List.orderedInsert, List.filter_cons]
  | cons b l ih =>
    by_cases hr : r a b
    · simp [List.orderedInsert, if_pos hr, List.filter_cons]
    · simp only [List.orderedInsert, if_neg hr, List.filter_cons]
      by_cases hpa : p a = true
      · have hpb : p b = false := by
          cases hq : p b
          · rfl
          · exact absurd (hp b hpa hq) hr
        simp [hpb, ih, hpa]
      · have hpa' : p a = false := by
          cases hq : p a
          · rfl
          · exact absurd hq hpa
        by_cases hpb : p b = true <;> simp [hpa', hpb, ih]

theorem filter_insertionSort (r : SDFRec → SDFRec → Prop) [DecidableRel r]
    (p : SDFRec → Bool) (l : List SDFRec)
    (hp : ∀ a b, p a = true → p b = true → r a b) :
    (List.insertionSort r l).filter p = l.filter p := by
  induction l with
  | nil => rfl
  | cons a l ih =>
    simp only [List.insertionSort]
    rw [filter_orderedInsert r p a _ (fun b => hp a b), ih]
    by_cases hpa : p a = true <;> simp [hpa, List.filter_cons]

/-- C3 (amended).  The sort-direction labels of `merge_sdf` are
inverted: requesting `'descending'` produces scores in ascending order,
and requesting `'ascending'` (or any other truthy label) produces scores
in descending order; in both cases the sort is stable, so records with
equal scores retain their relative input order (filtering the sorted
output by any fixed score value gives exactly the unsorted filtered
stream). -/
theorem merge_sort_direction_inverted (sdfss : List (List SDFRec)) (X v : ℚ) :
    ((mergeSDF sdfss (some (strL "descending")) X).map mergeKey).Sorted (· ≤ ·) ∧
    ((mergeSDF sdfss (some (strL "ascending")) X).map mergeKey).Sorted (fun a b => b ≤ a) ∧
    (mergeSDF sdfss (some (strL "descending")) X).filter (fun r => decide (r.score = some v))
      = (mergeSDF sdfss none X).filter (fun r => decide (r.score = some v)) ∧
    (mergeSDF sdfss (some (strL "ascending")) X).filter (fun r => decide (r.score = some v))
      = (mergeSDF sdfss none X).filter (fun r => decide (r.score = some v)) := by
  have hdesc : mergeSDF sdfss (some (strL "descending")) X
      = List.insertionSort (fun a b => mergeKey a ≤ mergeKey b)
          ((sdfss.map (fun l => l.filter (keepScore X))).flatten) := by
    simp [mergeSDF, sortRequested, strL]
  have hasc : mergeSDF sdfss (some (strL "ascending")) X
      = List.insertionSort (fun a b => mergeKey b ≤ mergeKey a)
          ((sdfss.map (fun l => l.filter (keepScore X))).flatten) := by
    have hne : ¬(some (strL "ascending") = some (strL "descending")) := by decide
    simp [mergeSDF, sortRequested, strL, hne]
  have hnone : mergeSDF sdfss none X
      = (sdfss.map (fun l => l.filter (keepScore X))).flatten := by
    simp [mergeSDF, sortRequested]
  haveI h1 : IsTotal SDFRec (fun a b => mergeKey a ≤ mergeKey b) :=
    ⟨fun a b => le_total _ _⟩
  haveI h2 : IsTrans SDFRec (fun a b => mergeKey a ≤ mergeKey b) :=
    ⟨fun _ _ _ hab hbc => le_trans hab hbc⟩
  haveI h3 : IsTotal SDFRec (fun a b => mergeKey b ≤ mergeKey a) :=
    ⟨fun a b => le_total _ _⟩
  haveI h4 : IsTrans SDFRec (fun a b => mergeKey b ≤ mergeKey a) :=
    ⟨fun _ _ _ hab hbc => le_trans hbc hab⟩
  refine ⟨?_, ?_, ?_, ?_⟩
  · rw [hdesc]
    exact (List.pairwise_map).mpr (List.sorted_insertionSort _ _)
  · rw [hasc]
    exact (List.pairwise_map).mpr (List.sorted_insertionSort _ _)
  · rw [hdesc, hnone]
    apply filter_insertionSort
    intro a b ha hb
    simp only [decide_eq_true_eq] at ha hb
    simp [mergeKey, ha, hb]
  · rw [hasc, hnone]
    apply filter_insertionSort
    intro a b ha hb
    simp only [decide_eq_true_eq] at ha hb
    simp [mergeKey, ha, hb]

/-- Counterexample to C3 as stated (the spec's own example): three
records scoring `-9.1, -7.3, -10.0` with ceiling `-8.0` and requested
direction `'ascending'` come out ordered `-9.1, -10.0`, which is not
ascending. -/
theorem merge_sort_direction_cex :
    (mergeSDF [[SDFRec.mk (strL "a") (some (mkRat (-91) 10)) (strL "a") (strL "M  END\n"),
                SDFRec.mk (strL "b") (some (mkRat (-73) 10)) (strL "b") (strL "M  END\n"),
                SDFRec.mk (strL "c") (some (mkRat (-10) 1)) (strL "c") (strL "M  END\n")]]
        (some (strL "ascending")) (mkRat (-8) 1)).map SDFRec.score
      = [some (mkRat (-91) 10), some (mkRat (-10) 1)] ∧
    ¬(mkRat (-91) 10 ≤ mkRat (-10) 1) := by decide


/-! ## C5: split by file count -/

theorem splitLoopF_nil (num i endv : Nat) (items : List SDFRec) :
    splitLoopF num i endv items []
      = if items.dropLast = [] then [] else [items.dropLast] := rfl

theorem splitLoopF_cons (num i endv : Nat) (items : List SDFRec) (x : SDFRec)
    (xs : List SDFRec) :
    splitLoopF num i endv items (x :: xs)
      = if i = endv then (items ++ [x]) :: splitLoopF num (i + 1) (endv + num) [] xs
        else splitLoopF num (i + 1) endv (items ++ [x]) xs := rfl

theorem splitLoopF_count (e : SDFRec) (he : e.mol = []) :
    ∀ (input : List SDFRec) (num i endv : Nat) (items : List SDFRec),
      input.getLast? = some e →
      ((splitLoopF num i endv items input).map countMol).sum = countMol (items ++ input) := by
  intro input
  induction input with
  | nil =>
    intro num i endv items h
    simp at h
  | cons x xs ih =>
    intro num i endv items hlast
    cases xs with
    | nil =>
      have hx : x = e := by simpa using hlast
      subst hx
      rw [splitLoopF_cons]
      by_cases hie : i = endv
      · rw [if_pos hie, splitLoopF_nil]
        simp [countMol]
      · rw [if_neg hie, splitLoopF_nil, List.dropLast_concat]
        by_cases hit : items = []
        · subst hit
          simp [countMol, he]
        · rw [if_neg hit]
          simp [countMol, List.countP_append, List.countP_cons, he]
    | cons y ys =>
      have hlast' : (y :: ys).getLast? = some e := by
        rw [← List.getLast?_cons_cons (a := x)]
        exact hlast
      rw [splitLoopF_cons]
      by_cases hie : i = endv
      · rw [if_pos hie]
        simp only [List.map_cons, List.sum_cons]
        rw [ih num (i + 1) (endv + num) [] hlast']
        simp [countMol, List.countP_append, List.countP_cons]
        omega
      · rw [if_neg hie, ih num (i + 1) endv (items ++ [x]) hlast']
        simp [countMol, List.countP_append, List.countP_cons]

theorem splitLoopF_length :
    ∀ (input : List SDFRec) (num i k : Nat) (items : List SDFRec),
      items.length + k + 1 = num →
      (splitLoopF num i (i + k) items input).length ≤
        (items.length + input.length + num - 1) / num := by
  intro input
  induction input with
  | nil =>
    intro num i k items hnum
    rw [splitLoopF_nil]
    by_cases hd : items.dropLast = []
    · simp [hd]
    · rw [if_neg hd]
      have hlen : 2 ≤ items.length := by
        rcases items with _ | ⟨a, _ | ⟨b, t⟩⟩
        · simp at hd
        · simp at hd
        · simp
      simp only [List.length_singleton, List.length_nil]
      rw [Nat.le_div_iff_mul_le (by omega)]
      omega
  | cons x xs ih =>
    intro num i k items hnum
    rw [splitLoopF_cons]
    by_cases hk : k = 0
    · subst hk
      rw [if_pos (by omega)]
      have harr : (i + 0) + num = (i + 1) + (num - 1) := by omega
      rw [harr]
      have hrec := ih num (i + 1) (num - 1) [] (by simp; omega)
      simp only [List.length_nil, List.length_cons] at hrec ⊢
      have hdiv : (items.length + (xs.length + 1) + num - 1) / num
          = (0 + xs.length + num - 1) / num + 1 := by
        have h1 : items.length + (xs.length + 1) + num - 1
            = (0 + xs.length + num - 1) + num := by omega
        rw [h1, Nat.add_div_right _ (by omega)]
      rw [hdiv]
      omega
    · rw [if_neg (by omega)]
      have harr : i + k = (i + 1) + (k - 1) := by omega
      rw [harr]
      have hrec := ih num (i + 1) (k - 1) (items ++ [x]) (by simp; omega)
      simp only [List.length_append, List.length_singleton, List.length_cons] at hrec ⊢
      have heq : items.length + (xs.length + 1) + num - 1
          = items.length + 1 + xs.length + num - 1 := by omega
      rw [heq]
      exact hrec

/-- C5 (amended).  For a well-formed (`$$$$`-terminated) SDF file whose
stream consists of `N ≥ 1` records with non-empty molecule blocks
followed by the parser's unconditional trailing empty record, splitting
into `F ≥ 1` files writes shards whose non-empty-record counts sum to
`N`, and produces at most `F + 1` shard files — one more than the claim
allows, because when the bucket size divides the stream length the
trailing empty record is flushed as a shard of its own (with zero
records). -/
theorem split_files_shards (rs : List SDFRec) (e : SDFRec) (files : Nat)
    (hf : 0 < files) (hrs : rs ≠ []) (he : e.mol = [])
    (hmol : ∀ r ∈ rs, r.mol ≠ []) :
    ((splitFiles (rs ++ [e]) files).map countMol).sum = rs.length ∧
    (splitFiles (rs ++ [e]) files).length ≤ files + 1 := by
  have hN : countMol (rs ++ [e]) = rs.length := by
    unfold countMol
    rw [List.countP_append]
    have h1 : List.countP (fun r => decide (r.mol ≠ [])) rs = rs.length :=
      List.countP_eq_length.mpr (fun a ha => by simp [hmol a ha])
    have h2 : List.countP (fun r => decide (r.mol ≠ [])) [e] = 0 := by
      simp [he]
    omega
  have hNpos : 0 < rs.length := List.length_pos.mpr hrs
  simp only [splitFiles, hN]
  set N := rs.length with hNdef
  generalize hnumdef : N / files + (if N % files = 0 then 0 else 1) = num
  have hdm := Nat.div_add_mod N files
  have hmlt : N % files < files := Nat.mod_lt _ hf
  have hnum_cases : num = N / files ∧ N % files = 0
      ∨ num = N / files + 1 ∧ ¬(N % files = 0) := by
    by_cases hm : N % files = 0
    · rw [if_pos hm] at hnumdef
      left
      exact ⟨by omega, hm⟩
    · rw [if_neg hm] at hnumdef
      right
      exact ⟨by omega, hm⟩
  have hnum1 : 1 ≤ num := by
    rcases hnum_cases with ⟨h1, hm⟩ | ⟨h1, hm⟩
    · have hdvd : files ∣ N := Nat.dvd_of_mod_eq_zero hm
      have hfle : files ≤ N := Nat.le_of_dvd hNpos hdvd
      have hpos : 0 < N / files := Nat.div_pos hfle hf
      rw [h1]
      exact hpos
    · rw [h1]
      exact Nat.le_add_left 1 (N / files)
  have hge : N ≤ files * num := by
    rcases hnum_cases with ⟨h1, hm⟩ | ⟨h1, hm⟩
    · rw [h1]
      omega
    · rw [h1, Nat.mul_add, Nat.mul_one]
      omega
  constructor
  · rw [splitLoopF_count e he (rs ++ [e]) num 1 num [] (List.getLast?_concat rs)]
    rw [List.nil_append, hN]
  · have h1 : (1 : Nat) + (num - 1) = num := by omega
    have hL := splitLoopF_length (rs ++ [e]) num 1 (num - 1) [] (by simp; omega)
    rw [h1] at hL
    simp only [List.length_nil, List.length_append, List.length_singleton] at hL
    have h2 : 0 + (N + 1) + num - 1 = N + num := by omega
    rw [h2, Nat.add_div_right _ (by omega)] at hL
    have h3 : N / num ≤ files := by
      have hlt : N / num < files + 1 := by
        rw [Nat.div_lt_iff_lt_mul (by omega)]
        calc N < N + num := by omega
          _ ≤ files * num + num := by omega
          _ = (files + 1) * num := by rw [Nat.add_mul, Nat.one_mul]
      omega
    omega

/-- Counterexample to C5 as stated: a well-formed file with `N = 2`
non-empty records split into `F = 2` files produces three shard files
(the third holding only the trailing empty record), exceeding the
claimed bound of at most `F` shards. -/
theorem split_files_shard_count_cex :
    (splitFiles [SDFRec.mk (strL "a") none (strL "a") (strL "M  END\n"),
                 SDFRec.mk (strL "b") none (strL "b") (strL "M  END\n"),
                 emptySDFRec] 2).length = 3 ∧
    ¬((splitFiles [SDFRec.mk (strL "a") none (strL "a") (strL "M  END\n"),
                   SDFRec.mk (strL "b") none (strL "b") (strL "M  END\n"),
                   emptySDFRec] 2).length ≤ 2) := by decide

/-- Witness for C5 (amended) at a concrete stream. -/
theorem split_files_shards_witness :
    ((splitFiles ([SDFRec.mk (strL "a") none (strL "a") (strL "M  END\n")]
        ++ [emptySDFRec]) 1).map countMol).sum = 1 ∧
    (splitFiles ([SDFRec.mk (strL "a") none (strL "a") (strL "M  END\n")]
        ++ [emptySDFRec]) 1).length ≤ 2 :=
  split_files_shards [SDFRec.mk (strL "a") none (strL "a") (strL "M  END\n")]
    emptySDFRec 1 (by decide) (by decide) rfl (by decide)

/-! ## C2: parse / serialize round trip -/

theorem scoreScan_skip (cur : Option ℚ) (l : PyStr) (restL : List PyStr)
    (h1 : ((strL "ENERGY").isPrefixOf l && pyContains (strL "LOWER_BOUND") l) = false)
    (h2 : ((strL ">").isPrefixOf l && pyContains (strL "<score>") l) = false) :
    scoreScan cur (l :: restL) = scoreScan cur restL := by
  simp [scoreScan, h1, h2]

theorem scoreScan_marker (cur : Option ℚ) (l v : PyStr) (restL : List PyStr)
    (h1 : ((strL "ENERGY").isPrefixOf l && pyContains (strL "LOWER_BOUND") l) = false)
    (h2 : ((strL ">").isPrefixOf l && pyContains (strL "<score>") l) = true) :
    scoreScan cur (l :: v :: restL)
      = scoreScan (pyFloatParse (pyStrip v)) (v :: restL) := by
  simp [scoreScan, h1, h2]

theorem sdfText_flatten_none (s0 T M : PyStr) (ml : List PyStr)
    (hM : M = ml.flatten) (hMne : M ≠ []) :
    sdfText ⟨s0, none, T, M⟩ []
      = ((T ++ ['\n']) :: (ml ++ [['\n'], strL "$$$$\n"])).flatten := by
  subst hM
  simp only [sdfText, ne_eq, hMne, not_false_eq_true, if_true, if_pos]
  simp [List.flatten_cons, List.flatten_append, List.append_assoc,
    (show strL "\n$$$$\n" = '\n' :: strL "$$$$\n" from rfl)]

theorem sdfText_flatten_some (s0 T M : PyStr) (q : ℚ) (ml : List PyStr)
    (hM : M = ml.flatten) (hMne : M ≠ []) :
    sdfText ⟨s0, some q, T, M⟩ []
      = ((T ++ ['\n'])
          :: (ml ++ [['\n'], strL "> <score>\n", printScore q ++ ['\n'], ['\n'],
                strL "$$$$\n"])).flatten := by
  subst hM
  simp only [sdfText, ne_eq, hMne, not_false_eq_true, if_true, if_pos]
  simp [List.flatten_cons, List.flatten_append, List.append_assoc,
    (show strL "\n$$$$\n" = '\n' :: strL "$$$$\n" from rfl),
    (show strL "> <score>\n" ++ printScore q ≠ [] by simp [strL])]

theorem sdfParse_of_lines (T : PyStr) (a : List PyStr) (x : PyStr)
    (exts : List PyStr) (sc : Option ℚ) (hTr : pyRstrip T = T)
    (hNLall : ∀ l ∈ (T ++ ['\n']) :: ((a ++ [x]) ++ exts), isNLLine l = true)
    (hxm : pyStrip x = mEndStr) (ham : ∀ y ∈ a, ¬(pyStrip y = mEndStr))
    (hscan : scoreScan none exts = some sc) :
    sdfParse (((T ++ ['\n']) :: ((a ++ [x]) ++ exts)).flatten)
      = some (sc, T, (a ++ [x]).flatten) := by
  have hserne : ((T ++ ['\n']) :: ((a ++ [x]) ++ exts)) ≠ [] := by simp
  have hflatne := flatten_ne_nil hserne hNLall
  unfold sdfParse
  rw [if_neg hflatne, splitlines_flatten _ hNLall]
  simp only [List.headD_cons, List.drop_succ_cons, List.drop_zero]
  have hre : (a ++ [x]) ++ exts = a ++ x :: exts := by simp
  rw [hre,
    findIdx?_of_decomp _ a x exts (by simp [hxm]) (fun y hy => by simp [ham y hy])]
  have htk : (a ++ x :: exts).take (a.length + 1) = a ++ [x] := by
    rw [List.take_append_eq_append_take, List.take_of_length_le (by omega)]
    simp
  have hdp : (a ++ x :: exts).drop (a.length + 1) = exts := by
    rw [List.drop_append_eq_append_drop, List.drop_of_length_le (by omega)]
    simp
  simp only [htk, hdp, hscan, Option.map_some']
  rw [rstrip_append_ws T '\n' (by decide), hTr]

/-- C2 (amended).  For every syntactically valid SDF record text (proper
`'\n'`-terminated lines with an `'M  END'` sentinel after the title) on
which `SDF.parse` succeeds, parsing, serializing the result and parsing
again reproduces the molecule block, the title and the score — the only
property the implementation retains.  Arbitrary other property blocks
are *not* reproduced (see `sdf_roundtrip_property_cex`), so the claim
holds only with "property set" weakened to the score property.  The
hypothesis `scoreOkB` is the float-rendering contract (print then
re-parse is the identity), which Python's `repr`/`float` satisfies. -/
theorem sdf_roundtrip_score_only (t0 : PyStr) (rest0 : List PyStr) (r : SDFRec)
    (hNL : ∀ l ∈ t0 :: rest0, isNLLine l = true)
    (hmend : (rest0.findIdx? (fun l => decide (pyStrip l = mEndStr))).isSome = true)
    (h : mkSDF (t0 :: rest0).flatten = some r)
    (hsc : scoreOkB r.score = true) :
    sdfParse (sdfText r []) = some (r.score, r.title, r.mol) := by
  obtain ⟨k, hk⟩ := Option.isSome_iff_exists.mp hmend
  have hflat_ne : (t0 :: rest0).flatten ≠ [] := flatten_ne_nil (by simp) hNL
  unfold mkSDF sdfParse at h
  rw [if_neg hflat_ne, splitlines_flatten _ hNL] at h
  simp only [List.headD_cons, List.drop_succ_cons, List.drop_zero, hk] at h
  obtain ⟨p, hp, hfp⟩ := Option.map_eq_some'.mp h
  obtain ⟨sc, hscan0, hf2⟩ := Option.map_eq_some'.mp hp
  subst hf2
  subst hfp
  obtain ⟨a, x, btail, hrest0, hlen, hx, ha⟩ := findIdx?_decomp _ rest0 k hk
  subst hrest0
  have hxm : pyStrip x = mEndStr := by simpa using hx
  have ham : ∀ y ∈ a, ¬(pyStrip y = mEndStr) := fun y hy => by simpa using ha y hy
  have htake : (a ++ x :: btail).take (k + 1) = a ++ [x] := by
    rw [← hlen, List.take_append_eq_append_take, List.take_of_length_le (by omega)]
    simp
  have hNLml : ∀ l ∈ a ++ [x], isNLLine l = true := by
    intro l hl
    apply hNL
    rcases List.mem_append.mp hl with h1 | h1
    · simp [h1]
    · simp at h1
      simp [h1]
  have hMne : (a ++ [x]).flatten ≠ [] := flatten_ne_nil (by simp) hNLml
  obtain ⟨b0, hb0eq, hb0nl⟩ := isNLLine_decomp (hNL t0 (by simp))
  have hT1 : pyRstrip t0 = pyRstrip b0 := by
    rw [hb0eq]
    exact rstrip_append_ws b0 '\n' (by decide)
  have hTnl : '\n' ∉ pyRstrip t0 := by
    rw [hT1]
    intro hm
    exact hb0nl (mem_rstrip hm)
  have hTr : pyRstrip (pyRstrip t0) = pyRstrip t0 := rstrip_idem t0
  have hTline : isNLLine (pyRstrip t0 ++ ['\n']) = true := by
    simp only [isNLLine, List.getLast?_concat, List.dropLast_concat]
    simp [hTnl]
  simp only [htake]
  cases sc with
  | none =>
    rw [sdfText_flatten_none _ _ _ (a ++ [x]) rfl hMne]
    apply sdfParse_of_lines (pyRstrip t0) a x [['\n'], strL "$$$$\n"] none hTr
      ?_ hxm ham (by decide)
    intro l hl
    rcases List.mem_cons.mp hl with rfl | hl2
    · exact hTline
    rcases List.mem_append.mp hl2 with hml | hext
    · exact hNLml l hml
    · simp at hext
      rcases hext with rfl | rfl <;> decide
  | some q =>
    have hsc' : scoreOkB (some q) = true := by simpa using hsc
    simp only [scoreOkB, Bool.and_eq_true, decide_eq_true_eq,
      Bool.not_eq_true'] at hsc'
    obtain ⟨⟨⟨hparse, hnl⟩, hen⟩, hgt⟩ := hsc'
    have hpsline : isNLLine (printScore q ++ ['\n']) = true := by
      have hmem : '\n' ∉ printScore q := by simpa using hnl
      simp only [isNLLine, List.getLast?_concat, List.dropLast_concat]
      simp [hmem]
    have hscan : scoreScan none
        [['\n'], strL "> <score>\n", printScore q ++ ['\n'], ['\n'], strL "$$$$\n"]
        = some (some q) := by
      rw [scoreScan_skip _ _ _ (by decide) (by decide)]
      rw [scoreScan_marker _ _ _ _ (by decide) (by decide)]
      rw [strip_append_ws _ '\n' (by decide), hparse]
      rw [scoreScan_skip _ _ _ (by simp [hen]) (by simp [hgt])]
      rw [scoreScan_skip _ _ _ (by decide) (by decide)]
      rw [scoreScan_skip _ _ _ (by decide) (by decide)]
      rfl
    rw [sdfText_flatten_some _ _ _ q (a ++ [x]) rfl hMne]
    apply sdfParse_of_lines (pyRstrip t0) a x
      [['\n'], strL "> <score>\n", printScore q ++ ['\n'], ['\n'], strL "$$$$\n"]
      (some q) hTr ?_ hxm ham hscan
    intro l hl
    rcases List.mem_cons.mp hl with rfl | hl2
    · exact hTline
    rcases List.mem_append.mp hl2 with hml | hext
    · exact hNLml l hml
    · simp at hext
      rcases hext with rfl | rfl | rfl | rfl | rfl
      · decide
      · decide
      · exact hpsline
      · decide
      · decide

/-- Counterexample to C2 as stated: a record carrying a `> <foo>`
property block round-trips to serialized text in which the property is
gone — the implementation stores only the score, so the original
property set is not reproduced. -/
theorem sdf_roundtrip_property_cex :
    pyContains (strL "<foo>") ((["T\n", "M  END\n", "> <foo>\n", "bar\n",
        "$$$$\n"].map strL).flatten) = true ∧
    (mkSDF ((["T\n", "M  END\n", "> <foo>\n", "bar\n", "$$$$\n"].map strL).flatten)).map
        (fun r => pyContains (strL "<foo>") (sdfText r [])) = some false := by
  decide

/-- Witness for C2 (amended) at a concrete record with a score. -/
theorem sdf_roundtrip_score_only_witness :
    ∃ r, mkSDF ((strL "T\n") :: [strL "M  END\n", strL "> <score>\n",
        strL "-9.1\n", strL "$$$$\n"]).flatten = some r ∧
      sdfParse (sdfText r []) = some (r.score, r.title, r.mol) := by
  have hmk : mkSDF ((strL "T\n") :: [strL "M  END\n", strL "> <score>\n",
      strL "-9.1\n", strL "$$$$\n"]).flatten
      = some (SDFRec.mk (strL "T\nM  END\n> <score>\n-9.1\n$$$$\n")
          (some (mkRat (-91) 10)) (strL "T") (strL "M  END\n")) := by decide
  refine ⟨_, hmk, ?_⟩
  exact sdf_roundtrip_score_only (strL "T\n")
    [strL "M  END\n", strL "> <score>\n", strL "-9.1\n", strL "$$$$\n"] _
    (by decide) (by decide) hmk (by decide)
